import Mathlib

/-!
Verification of the psearch retrieval core (personal_search package).

The Python sources are shallowly embedded here:
 - search.py: NotesSearchEngine._score_with_llm and NotesSearchEngine.search
   (relevance-rating extraction, blended scoring, git-path filter,
   dedup-by-source, stable sort by score, truncation to top_k);
 - indexer.py: NotesIndexer._should_skip_path, NotesIndexer._is_text_file,
   eligibility in NotesIndexer._load_documents, and NotesIndexer.index;
 - the text splitter (an external library call in indexer.py) is modelled
   from the specification of the Chunker.

Text is embedded as List Char, raw file bytes as List Nat (each < 256),
and floating-point scores as rationals, so that the score arithmetic of
the source is stated exactly.
-/

namespace PSearch

/-! ### Relevance scoring (search.py, NotesSearchEngine._score_with_llm) -/

/-- Value of a decimal-digit string, as produced by Python int() on a match
of one or more digits. -/
def natOfDigits (ds : List Char) : Nat :=
  ds.foldl (fun a c => a * 10 + (c.toNat - ('0').toNat)) 0

/-- First maximal run of decimal digits in the response, as a number:
the embedding of re.findall on a digit-run pattern followed by taking
the head, returning none when the response holds no digit. -/
def firstNumber : List Char → Option Nat
  | [] => none
  | c :: cs =>
    if c.isDigit then some (natOfDigits (c :: cs.takeWhile Char.isDigit))
    else firstNumber cs

/-- Rating extracted from an LLM response: the first integer literal,
clamped into [1, 10]; 5 when the response holds no integer. -/
def extractRating (resp : List Char) : Nat :=
  match firstNumber resp with
  | some n => max 1 (min 10 n)
  | none => 5

/-- The embedding of _score_with_llm: vecScore is the result's current
score (the raw vector distance), resp is the scorer outcome for this
candidate (none when the scorer call raised). -/
def scoreWithLLM (llmAvailable : Bool) (resp : Option (List Char)) (vecScore : ℚ) : ℚ :=
  if llmAvailable = false then vecScore
  else
    match resp with
    | none => vecScore
    | some r =>
      let llmScore := extractRating r
      let llmDistance : ℚ := (11 - (llmScore : ℚ)) / 10
      llmDistance * (7 / 10) + vecScore * (3 / 10)

/-! ### Search pipeline (search.py, NotesSearchEngine.search) -/

/-- Python substring membership: pat occurs contiguously in the list. -/
def listContains (pat : List Char) : List Char → Bool
  | [] => pat.isEmpty
  | c :: t => pat.isPrefixOf (c :: t) || listContains pat t

def gitPat : List Char := ("/.git/").toList

def githubPat : List Char := ("/.github/").toList

/-- The git-directory test applied to each candidate path in search. -/
def isGitPath (s : List Char) : Bool := listContains gitPat s || listContains githubPat s

/-- One raw retrieval candidate: its source path, its raw vector
distance, and the scorer outcome the environment would produce for it
(none models a scorer exception for that candidate). -/
structure Hit where
  source : List Char
  dist : ℚ
  resp : Option (List Char)
deriving DecidableEq

/-- The filter-and-dedup loop of search: skip git paths, then keep only
the first candidate for each source path, in retrieval order. -/
def dedupGo (seen : List (List Char)) : List Hit → List Hit
  | [] => []
  | h :: t =>
    if isGitPath h.source then dedupGo seen t
    else if h.source ∈ seen then dedupGo seen t
    else h :: dedupGo (h.source :: seen) t

/-- The optional LLM re-scoring pass: when the scorer is available and
the candidate list is nonempty, every candidate's score is replaced by
the blended score. -/
def rescore (llmAvailable : Bool) (results : List (Hit × ℚ)) : List (Hit × ℚ) :=
  if llmAvailable && !results.isEmpty then
    results.map (fun p => (p.1, scoreWithLLM llmAvailable p.1.resp p.2))
  else results

/-- Number of candidates requested from the vector store. -/
def initialK (llmAvailable : Bool) (topK : Nat) : Nat :=
  if llmAvailable then min (topK * 2) 20 else topK

/-- The body of search after a successful store query: build results
carrying the raw distance as score, filter and dedup, optionally
re-score, stable-sort ascending by score, truncate to topK. -/
def searchModel (llmAvailable : Bool) (topK : Nat) (hits : List Hit) : List (Hit × ℚ) :=
  ((rescore llmAvailable ((dedupGo [] hits).map (fun h => (h, h.dist)))).mergeSort
    (fun a b => decide (a.2 ≤ b.2))).take topK

/-- Outcome of the vector-store interaction at the head of search:
the store may be absent, the similarity query may raise, or it returns
a candidate list. -/
inductive RetrievalOutcome where
  | noIndex : RetrievalOutcome
  | queryError : RetrievalOutcome
  | hits : List Hit → RetrievalOutcome

/-- What search signals to the user alongside its result list. -/
inductive SearchStatus where
  | noIndexReported : SearchStatus
  | errorReported : SearchStatus
  | completed : SearchStatus
deriving DecidableEq

/-- Whole-call embedding of search: a missing index returns [] with the
no-index message; a store query error is caught and returns [] with the
error message; otherwise the pipeline runs to completion. -/
def searchRun (llmAvailable : Bool) (topK : Nat) (r : RetrievalOutcome) :
    SearchStatus × List (Hit × ℚ) :=
  match r with
  | RetrievalOutcome.noIndex => (SearchStatus.noIndexReported, [])
  | RetrievalOutcome.queryError => (SearchStatus.errorReported, [])
  | RetrievalOutcome.hits l => (SearchStatus.completed, searchModel llmAvailable topK l)

/-! ### Binary-content sniff (indexer.py, NotesIndexer._is_text_file) -/

/-- UTF-8 continuation byte. -/
def isCont (b : Nat) : Bool := 0x80 ≤ b && b ≤ 0xBF

/-- Strict UTF-8 validity of a byte sequence, as checked by a strict
utf-8 decode (overlongs, surrogates and values above U+10FFFF rejected). -/
def utf8Ok : List Nat → Bool
  | [] => true
  | b :: rest =>
    if b ≤ 0x7F then utf8Ok rest
    else if 0xC2 ≤ b && b ≤ 0xDF then
      match rest with
      | b2 :: r2 => isCont b2 && utf8Ok r2
      | [] => false
    else if b = 0xE0 then
      match rest with
      | b2 :: b3 :: r3 => (0xA0 ≤ b2 && b2 ≤ 0xBF) && isCont b3 && utf8Ok r3
      | _ => false
    else if (0xE1 ≤ b && b ≤ 0xEC) || b = 0xEE || b = 0xEF then
      match rest with
      | b2 :: b3 :: r3 => isCont b2 && isCont b3 && utf8Ok r3
      | _ => false
    else if b = 0xED then
      match rest with
      | b2 :: b3 :: r3 => (0x80 ≤ b2 && b2 ≤ 0x9F) && isCont b3 && utf8Ok r3
      | _ => false
    else if b = 0xF0 then
      match rest with
      | b2 :: b3 :: b4 :: r4 => (0x90 ≤ b2 && b2 ≤ 0xBF) && isCont b3 && isCont b4 && utf8Ok r4
      | _ => false
    else if 0xF1 ≤ b && b ≤ 0xF3 then
      match rest with
      | b2 :: b3 :: b4 :: r4 => isCont b2 && isCont b3 && isCont b4 && utf8Ok r4
      | _ => false
    else if b = 0xF4 then
      match rest with
      | b2 :: b3 :: b4 :: r4 => (0x80 ≤ b2 && b2 ≤ 0x8F) && isCont b3 && isCont b4 && utf8Ok r4
      | _ => false
    else false

/-- Latin-1 decodability: every byte value below 256 maps to a code
point, so this holds of every well-formed byte sequence. -/
def latin1Ok (chunk : List Nat) : Bool := chunk.all (fun b => b < 256)

/-- The embedding of _is_text_file on the first up-to-1024 bytes read:
none models an OSError or IOError on open or read. -/
def isTextFile (readBytes : Option (List Nat)) : Bool :=
  match readBytes with
  | none => false
  | some chunk =>
    if chunk.isEmpty then true
    else if chunk.contains 0 then false
    else if utf8Ok chunk then true
    else if latin1Ok chunk then true
    else false

/-! ### Path filter (indexer.py, NotesIndexer._should_skip_path and
eligibility in NotesIndexer._load_documents)

A filesystem path is embedded as its list of components below the root,
last component the file name; str(path) joins them with a slash before
each component. -/

def skipDirs : List (List Char) :=
  [(".git").toList, (".github").toList, ("__pycache__").toList, ("node_modules").toList,
   (".venv").toList, ("venv").toList, ("env").toList]

def pathStr (parts : List (List Char)) : List Char :=
  parts.foldl (fun acc p => acc ++ ('/') :: p) []

/-- Name of the immediate parent: the component before the last, or the
root's empty name. -/
def parentName (parts : List (List Char)) : List Char :=
  parts.dropLast.getLastD []

/-- The embedding of _should_skip_path: any ancestor directory name in
the exclusion set, the immediate parent's name in the exclusion set, or
a git directory segment anywhere in the rendered path. -/
def shouldSkipPath (parts : List (List Char)) : Bool :=
  parts.dropLast.any (fun n => skipDirs.contains n)
  || skipDirs.contains (parentName parts)
  || listContains gitPat (pathStr parts)
  || listContains githubPat (pathStr parts)

def allowedExts : List (List Char) :=
  [(".txt").toList, (".md").toList, (".py").toList, (".js").toList, (".json").toList,
   (".yaml").toList, (".yml").toList, (".sh").toList, (".sql").toList]

def fileName (parts : List (List Char)) : List Char := parts.getLastD []

/-- Whether the file name has a nonempty extension in the pathlib sense:
a dot strictly after the first character. -/
def hasDotSuffix (name : List Char) : Bool := (name.drop 1).contains ('.')

/-- File-collection test of _load_documents: either the name ends in an
allow-listed extension and the path is not skipped, or the name is
extensionless, the path is not skipped, and the content sniff passes
(sniff carries the first up-to-1024 bytes, none on a read error). -/
def fileEligible (parts : List (List Char)) (sniff : Option (List Nat)) : Bool :=
  (allowedExts.any (fun e => e.isSuffixOf (fileName parts)) && !shouldSkipPath parts)
  || (!hasDotSuffix (fileName parts) && !shouldSkipPath parts && isTextFile sniff)

/-! ### Chunker

The text splitter invoked by indexer.py is an external library call,
configured there with chunk_size, chunk_overlap and the separator list
paragraph break, line break, space, empty. The splitting algorithm is
modelled from the spec below. -/

/-- Modelled from the spec: the Chunker's separator split (the splitter
itself is missing from the sources). Split the text after each
occurrence of the separator, keeping the separator attached to the
preceding piece, so that the pieces concatenate back to the input. -/
def splitKeepSep (sep : List Char) : List Char → List Char → List (List Char)
  | acc, [] => [acc.reverse]
  | acc, c :: l =>
    if _h : 0 < sep.length ∧ sep.isPrefixOf (c :: l) = true then
      (acc.reverse ++ sep) :: splitKeepSep sep [] ((c :: l).drop sep.length)
    else splitKeepSep sep (c :: acc) l
termination_by _ l => l.length
decreasing_by
  · simp only [List.length_drop, List.length_cons]
    omega
  · simp only [List.length_cons]
    omega

/-- Modelled from the spec: the hard character-level cut used once the
finest (empty) separator is reached: pieces of exactly chunkSize
characters, the final piece shorter. -/
def hardCut (n : Nat) (l : List Char) : List (List Char) :=
  if l = [] then []
  else if n = 0 then [l]
  else l.take n :: hardCut n (l.drop n)
termination_by l.length
decreasing_by
  simp only [List.length_drop]
  cases l with
  | nil => simp_all
  | cons a t => simp only [List.length_cons]; omega

/-- Modelled from the spec: greedily recombine adjacent small pieces up
to the chunk size. -/
def mergeGreedy (n : Nat) : List (List Char) → List (List Char)
  | [] => []
  | [p] => [p]
  | p :: q :: rest =>
    if (p ++ q).length ≤ n then mergeGreedy n ((p ++ q) :: rest)
    else p :: mergeGreedy n (q :: rest)
termination_by ps => ps.length

mutual

/-- Modelled from the spec: recursively split the text on the coarsest
separator; a piece still too large is split with the next finer
separator; an unsplittable oversized piece (no separators left) is
emitted as-is; pieces are recombined greedily up to the chunk size. -/
def splitRec (chunkSize : Nat) : List (List Char) → List Char → List (List Char)
  | [], l => [l]
  | sep :: rest, l =>
    if l.length ≤ chunkSize then [l]
    else if sep.isEmpty then hardCut chunkSize l
    else mergeGreedy chunkSize (splitParts chunkSize rest (splitKeepSep sep [] l))
termination_by seps _ => (seps.length, 0)

/-- Modelled from the spec: apply the finer-separator recursion to every
piece that is still larger than the chunk size. -/
def splitParts (chunkSize : Nat) (rest : List (List Char)) : List (List Char) → List (List Char)
  | [] => []
  | p :: ps =>
    (if p.length ≤ chunkSize then [p] else splitRec chunkSize rest p)
      ++ splitParts chunkSize rest ps
termination_by ps => (rest.length, ps.length + 1)

end

/-- Trailing context of the previous chunk: its last n characters. -/
def takeLast (n : Nat) (l : List Char) : List Char := l.drop (l.length - n)

/-- Modelled from the spec: emit the pieces as chunks, inserting
chunk_overlap characters of trailing context from the previous chunk at
the start of each chunk after the first. -/
def chunksWithOverlap (ov : Nat) : List Char → List (List Char) → List (List Char)
  | _, [] => []
  | prev, p :: ps =>
    (takeLast ov prev ++ p) :: chunksWithOverlap ov (takeLast ov prev ++ p) ps

/-- Remove the inserted overlap again: drop from each chunk after the
first exactly the characters the previous chunk contributed. -/
def stripOverlap (ov : Nat) : List Char → List (List Char) → List (List Char)
  | _, [] => []
  | prev, c :: cs => c.drop (min ov prev.length) :: stripOverlap ov c cs

/-- The separator preference list the indexer passes to the splitter. -/
def defaultSeps : List (List Char) := [("\n\n").toList, ("\n").toList, (" ").toList, []]

/-- The whole Chunker on one document text. -/
def splitChunks (chunkSize ov : Nat) (text : List Char) : List (List Char) :=
  chunksWithOverlap ov [] (splitRec chunkSize defaultSeps text)

/-! ### Indexing run (indexer.py, NotesIndexer.index) -/

/-- Vector-store operations performed by one indexing run. -/
inductive StoreOp where
  | rebuild : StoreOp
  | create : Nat → StoreOp
  | add : Nat → StoreOp
deriving DecidableEq

/-- Chunks written to the store by a trace of operations. -/
def chunksWritten : List StoreOp → Nat
  | [] => 0
  | StoreOp.rebuild :: t => chunksWritten t
  | StoreOp.create n :: t => n + chunksWritten t
  | StoreOp.add n :: t => n + chunksWritten t

/-- The embedding of NotesIndexer.index: docs are the loaded document
texts, storeNonEmpty says whether the index directory already holds
entries, force is the force_reindex flag. Returns the count the method
returns together with the trace of store operations it performs. -/
def indexRun (docs : List (List Char)) (chunkSize ov : Nat) (storeNonEmpty force : Bool) :
    Nat × List StoreOp :=
  if docs.isEmpty then (0, [])
  else
    let chunks := docs.flatMap (fun d => splitChunks chunkSize ov d)
    let nonEmptyAfter := if force then false else storeNonEmpty
    let ops := (if force then [StoreOp.rebuild] else [])
      ++ [if nonEmptyAfter then StoreOp.add chunks.length else StoreOp.create chunks.length]
    (chunks.length, ops)

/-! ### Lemmas on the Chunker: pieces concatenate back to the text -/

theorem splitKeepSep_flatten (sep : List Char) (acc l : List Char) :
    (splitKeepSep sep acc l).flatten = acc.reverse ++ l := by
  induction acc, l using splitKeepSep.induct sep with
  | case1 acc => simp [splitKeepSep]
  | case2 acc c l h ih =>
    rw [splitKeepSep]
    rw [dif_pos h]
    simp only [List.flatten_cons, ih, List.reverse_nil, List.nil_append, List.append_assoc]
    congr 1
    exact List.prefix_iff_eq_append.mp (List.isPrefixOf_iff_prefix.mp h.2)
  | case3 acc c l h ih =>
    rw [splitKeepSep]
    rw [dif_neg h]
    simp only [ih, List.reverse_cons, List.append_assoc, List.cons_append, List.nil_append]

theorem hardCut_flatten (n : Nat) (l : List Char) : (hardCut n l).flatten = l := by
  induction l using hardCut.induct n with
  | case1 => simp [hardCut]
  | case2 l h1 h2 =>
    rw [hardCut, if_neg h1, if_pos h2]
    simp
  | case3 l h1 h2 ih =>
    rw [hardCut, if_neg h1, if_neg h2]
    simp [ih, List.take_append_drop]

theorem mergeGreedy_flatten (n : Nat) (ps : List (List Char)) :
    (mergeGreedy n ps).flatten = ps.flatten := by
  induction ps using mergeGreedy.induct n with
  | case1 => simp [mergeGreedy]
  | case2 p => simp [mergeGreedy]
  | case3 p q rest h ih =>
    rw [mergeGreedy, if_pos h]
    simp only [ih, List.flatten_cons, List.append_assoc]
  | case4 p q rest h ih =>
    rw [mergeGreedy, if_neg h]
    simp only [List.flatten_cons, ih]

theorem splitParts_flatten_aux (cs : Nat) (rest : List (List Char))
    (ih : ∀ l, (splitRec cs rest l).flatten = l) :
    ∀ ps : List (List Char), (splitParts cs rest ps).flatten = ps.flatten := by
  intro ps
  induction ps with
  | nil => simp [splitParts]
  | cons p t iht =>
    rw [splitParts]
    by_cases hp : p.length ≤ cs
    · simp [hp, iht]
    · simp [hp, ih p, iht]

theorem splitRec_flatten (cs : Nat) : ∀ (seps : List (List Char)) (l : List Char),
    (splitRec cs seps l).flatten = l := by
  intro seps
  induction seps with
  | nil => intro l; simp [splitRec]
  | cons sep rest ih =>
    intro l
    rw [splitRec]
    by_cases h1 : l.length ≤ cs
    · simp [h1]
    · rw [if_neg h1]
      by_cases h2 : sep.isEmpty
      · simp [h2, hardCut_flatten]
      · simp [h2, mergeGreedy_flatten, splitParts_flatten_aux cs rest ih,
          splitKeepSep_flatten]

theorem stripOverlap_chunks (ov : Nat) : ∀ (ps : List (List Char)) (prev : List Char),
    stripOverlap ov prev (chunksWithOverlap ov prev ps) = ps := by
  intro ps
  induction ps with
  | nil => intro prev; rfl
  | cons p t ih =>
    intro prev
    rw [chunksWithOverlap, stripOverlap]
    have hlen : (takeLast ov prev).length = min ov prev.length := by
      simp only [takeLast, List.length_drop]
      omega
    rw [← hlen, List.drop_left, ih]

/-- C6: for any text and any chunk size and overlap with overlap smaller
than the chunk size, concatenating the Chunker's chunks with the
inserted overlap removed reproduces the text exactly. -/
theorem c6_chunk_reconstruction (cs ov : Nat) (text : List Char) (_hov : ov < cs) :
    (stripOverlap ov [] (splitChunks cs ov text)).flatten = text := by
  unfold splitChunks
  rw [stripOverlap_chunks, splitRec_flatten]

theorem c6_chunk_reconstruction_witness :
    (stripOverlap 2 [] (splitChunks 5 2 (("hello world").toList))).flatten
      = ("hello world").toList :=
  c6_chunk_reconstruction 5 2 (("hello world").toList) (by decide)

/-! ### Lemmas on rating extraction -/

theorem takeWhile_all_append (p : Char → Bool) (l r : List Char)
    (hl : ∀ c ∈ l, p c = true) (hr : ∀ c ∈ r.take 1, p c = false) :
    (l ++ r).takeWhile p = l := by
  induction l with
  | nil =>
    cases r with
    | nil => rfl
    | cons x xs =>
      have hx := hr x (by simp)
      simp [List.takeWhile_cons, hx]
  | cons a t ih =>
    have ha := hl a (by simp)
    simp only [List.cons_append, List.takeWhile_cons, ha, if_true]
    rw [ih (fun c hc => hl c (by simp [hc]))]

theorem firstNumber_no_digit (l : List Char) (h : ∀ c ∈ l, c.isDigit = false) :
    firstNumber l = none := by
  induction l with
  | nil => rfl
  | cons a t ih =>
    have ha := h a (by simp)
    simp [firstNumber, ha, ih (fun c hc => h c (by simp [hc]))]

theorem firstNumber_first_run (pre ds post : List Char)
    (hpre : ∀ c ∈ pre, c.isDigit = false) (hds : ds ≠ [])
    (hall : ∀ c ∈ ds, c.isDigit = true)
    (hpost : ∀ c ∈ post.take 1, c.isDigit = false) :
    firstNumber (pre ++ ds ++ post) = some (natOfDigits ds) := by
  induction pre with
  | nil =>
    cases ds with
    | nil => exact absurd rfl hds
    | cons d ds2 =>
      have hd := hall d (by simp)
      simp only [List.nil_append, List.cons_append, firstNumber, hd, if_true]
      simp only [List.append_eq]
      rw [takeWhile_all_append Char.isDigit ds2 post (fun c hc => hall c (by simp [hc])) hpost]
  | cons a t ih =>
    have ha := hpre a (by simp)
    simp only [List.cons_append, List.append_assoc] at ih ⊢
    simp only [firstNumber, ha, Bool.false_eq_true, if_false]
    simpa using ih (fun c hc => hpre c (by simp [hc]))

/-! ### Claim theorems: scoring -/

/-- C1: for a re-ranked candidate whose extracted rating is r and whose
raw vector distance is d, the blended score computed by _score_with_llm
equals 0.7 * ((11 - r) / 10) + 0.3 * d; at equal vector distance 1/2 a
rating of 8 yields 0.36 and a rating of 2 yields 0.78, so the
higher-rated candidate scores strictly lower (better). -/
theorem c1_blended_score :
    (∀ (resp : List Char) (d : ℚ),
      scoreWithLLM true (some resp) d
        = 7 / 10 * ((11 - (extractRating resp : ℚ)) / 10) + 3 / 10 * d)
    ∧ scoreWithLLM true (some (("8").toList)) (1 / 2) = 36 / 100
    ∧ scoreWithLLM true (some (("2").toList)) (1 / 2) = 78 / 100
    ∧ scoreWithLLM true (some (("8").toList)) (1 / 2)
        < scoreWithLLM true (some (("2").toList)) (1 / 2) := by
  have h8 : extractRating ['8'] = 8 := by decide
  have h2 : extractRating ['2'] = 2 := by decide
  refine ⟨?_, ?_, ?_, ?_⟩
  · intro resp d
    simp [scoreWithLLM]
    ring
  · simp [scoreWithLLM, h8]
    norm_num
  · simp [scoreWithLLM, h2]
    norm_num
  · simp [scoreWithLLM, h8, h2]
    norm_num

/-- C2: the rating used for re-ranking is the first integer literal of
the scorer response clamped into [1, 10]; a response with no integer
rates 5; every extracted rating lies in [1, 10]. -/
theorem c2_rating_extraction :
    (∀ resp : List Char, 1 ≤ extractRating resp ∧ extractRating resp ≤ 10)
    ∧ (∀ resp : List Char, (∀ c ∈ resp, c.isDigit = false) → extractRating resp = 5)
    ∧ (∀ pre ds post : List Char, (∀ c ∈ pre, c.isDigit = false) → ds ≠ [] →
        (∀ c ∈ ds, c.isDigit = true) → (∀ c ∈ post.take 1, c.isDigit = false) →
        extractRating (pre ++ ds ++ post) = max 1 (min 10 (natOfDigits ds))) := by
  refine ⟨?_, ?_, ?_⟩
  · intro resp
    unfold extractRating
    cases h : firstNumber resp with
    | none => simp
    | some n =>
      refine ⟨?_, ?_⟩
      · show 1 ≤ max 1 (min 10 n)
        omega
      · show max 1 (min 10 n) ≤ 10
        omega
  · intro resp h
    unfold extractRating
    rw [firstNumber_no_digit resp h]
  · intro pre ds post h1 h2 h3 h4
    unfold extractRating
    rw [firstNumber_first_run pre ds post h1 h2 h3 h4]

theorem c2_rating_extraction_witness :
    extractRating (("ab").toList ++ ("12").toList ++ ("x").toList)
      = max 1 (min 10 (natOfDigits (("12").toList))) :=
  c2_rating_extraction.2.2 (("ab").toList) (("12").toList) (("x").toList)
    (by decide) (by decide) (by decide) (by decide)

/-! ### Claim theorems: path filter and sniff -/

/-- C5: a path with any ancestor directory name in the exclusion set,
at any depth, is never eligible for indexing, whatever the extension
and whatever the content sniff says. -/
theorem c5_excluded_dirs (parts : List (List Char)) (sniff : Option (List Nat))
    (hanc : ∃ d ∈ parts.dropLast, d ∈ skipDirs) :
    fileEligible parts sniff = false := by
  obtain ⟨d, hd, hds⟩ := hanc
  have h1 : parts.dropLast.any (fun n => skipDirs.contains n) = true := by
    rw [List.any_eq_true]
    exact ⟨d, hd, by simpa using hds⟩
  have hskip : shouldSkipPath parts = true := by
    unfold shouldSkipPath
    rw [h1]
    rfl
  simp [fileEligible, hskip]

theorem c5_excluded_dirs_witness :
    fileEligible [(".git").toList, ("a.md").toList] none = false :=
  c5_excluded_dirs [(".git").toList, ("a.md").toList] none (by decide)

/-- C10: on a readable file the sniff accepts every byte sequence free
of null bytes, because the latin-1 fallback decodes every byte; the
only rejections are a null byte in the first kilobyte or a read error. -/
theorem c10_sniff_no_null (chunk : List Nat) (hbytes : ∀ b ∈ chunk, b < 256) :
    (0 ∉ chunk → isTextFile (some chunk) = true)
    ∧ latin1Ok chunk = true
    ∧ (isTextFile (some chunk) = false → 0 ∈ chunk)
    ∧ isTextFile none = false := by
  have hl : latin1Ok chunk = true := by
    rw [latin1Ok, List.all_eq_true]
    intro b hb
    simpa using hbytes b hb
  have hkey : 0 ∉ chunk → isTextFile (some chunk) = true := by
    intro h0
    have hc : chunk.contains 0 = false := by
      simpa using h0
    unfold isTextFile
    by_cases he : chunk.isEmpty
    · simp [he]
    · by_cases hu : utf8Ok chunk
      · simp [he, hu, h0]
      · simp [he, hu, h0, hl]
  refine ⟨hkey, hl, ?_, rfl⟩
  intro hfalse
  by_contra h0
  rw [hkey h0] at hfalse
  exact absurd hfalse (by simp)

theorem c10_sniff_no_null_witness :
    (0 ∉ [104, 105] → isTextFile (some [104, 105]) = true)
    ∧ latin1Ok [104, 105] = true
    ∧ (isTextFile (some [104, 105]) = false → 0 ∈ [104, 105])
    ∧ isTextFile none = false :=
  c10_sniff_no_null [104, 105] (by decide)

/-! ### Lemmas on the filter-dedup loop, re-scoring and sorting -/

theorem dedupGo_sublist (hits : List Hit) : ∀ seen, (dedupGo seen hits).Sublist hits := by
  induction hits with
  | nil => intro seen; simp [dedupGo]
  | cons x t ih =>
    intro seen
    by_cases hg : isGitPath x.source = true
    · rw [show dedupGo seen (x :: t) = dedupGo seen t by simp [dedupGo, hg]]
      exact (ih seen).cons x
    · by_cases hs : x.source ∈ seen
      · rw [show dedupGo seen (x :: t) = dedupGo seen t by simp [dedupGo, hg, hs]]
        exact (ih seen).cons x
      · rw [show dedupGo seen (x :: t) = x :: dedupGo (x.source :: seen) t by
          simp [dedupGo, hg, hs]]
        exact (ih (x.source :: seen)).cons₂ x

theorem dedupGo_spec (hits : List Hit) : ∀ seen : List (List Char),
    ((dedupGo seen hits).map (fun h => h.source)).Nodup
    ∧ ∀ h ∈ dedupGo seen hits,
        h.source ∉ seen ∧ isGitPath h.source = false
          ∧ hits.find? (fun x => x.source == h.source) = some h := by
  induction hits with
  | nil => intro seen; simp [dedupGo]
  | cons x t ih =>
    intro seen
    by_cases hg : isGitPath x.source = true
    · rw [show dedupGo seen (x :: t) = dedupGo seen t by simp [dedupGo, hg]]
      refine ⟨(ih seen).1, ?_⟩
      intro h hh
      obtain ⟨h1, h2, h3⟩ := (ih seen).2 h hh
      refine ⟨h1, h2, ?_⟩
      rw [List.find?_cons_of_neg, h3]
      simp only [beq_iff_eq]
      intro hxy
      rw [hxy] at hg
      simp [h2] at hg
    · by_cases hs : x.source ∈ seen
      · rw [show dedupGo seen (x :: t) = dedupGo seen t by simp [dedupGo, hg, hs]]
        refine ⟨(ih seen).1, ?_⟩
        intro h hh
        obtain ⟨h1, h2, h3⟩ := (ih seen).2 h hh
        refine ⟨h1, h2, ?_⟩
        rw [List.find?_cons_of_neg, h3]
        simp only [beq_iff_eq]
        intro hxy
        rw [hxy] at hs
        exact h1 hs
      · rw [show dedupGo seen (x :: t) = x :: dedupGo (x.source :: seen) t by
          simp [dedupGo, hg, hs]]
        have iht := ih (x.source :: seen)
        constructor
        · rw [List.map_cons, List.nodup_cons]
          refine ⟨?_, iht.1⟩
          intro hmem
          obtain ⟨h, hh, hsrc⟩ := List.mem_map.mp hmem
          exact (iht.2 h hh).1 (by rw [hsrc]; exact List.mem_cons_self _ _)
        · intro h hh
          rcases List.mem_cons.mp hh with rfl | hh2
          · refine ⟨hs, by simpa using hg, ?_⟩
            rw [List.find?_cons_of_pos]
            simp
          · obtain ⟨h1, h2, h3⟩ := iht.2 h hh2
            have hne : h.source ≠ x.source := fun e => h1 (by rw [e]; exact List.mem_cons_self _ _)
            refine ⟨fun hmem => h1 (List.mem_cons_of_mem _ hmem), h2, ?_⟩
            rw [List.find?_cons_of_neg, h3]
            simp only [beq_iff_eq]
            exact fun e => hne e.symm

theorem rescore_map_fst (b : Bool) (rs : List (Hit × ℚ)) :
    (rescore b rs).map Prod.fst = rs.map Prod.fst := by
  unfold rescore
  by_cases h : (b && !rs.isEmpty) = true
  · rw [if_pos h, List.map_map]
    rfl
  · rw [if_neg h]

theorem mem_rescore_true (rs : List (Hit × ℚ)) (p : Hit × ℚ)
    (hp : p ∈ rescore true rs) :
    ∃ q ∈ rs, p = (q.1, scoreWithLLM true q.1.resp q.2) := by
  cases rs with
  | nil => simp [rescore] at hp
  | cons a l =>
    simp only [rescore, List.isEmpty_cons, Bool.not_false, Bool.and_self, if_true,
      Bool.true_and, ite_true] at hp
    obtain ⟨q, hq, he⟩ := List.mem_map.mp hp
    exact ⟨q, hq, he.symm⟩

theorem mem_searchModel (llm : Bool) (topK : Nat) (hits : List Hit) (p : Hit × ℚ)
    (hp : p ∈ searchModel llm topK hits) :
    p ∈ rescore llm ((dedupGo [] hits).map (fun h => (h, h.dist))) := by
  unfold searchModel at hp
  exact List.mem_mergeSort.mp (List.mem_of_mem_take hp)

/-! ### Claim theorems: dedup, ordering, scorer fallback -/

/-- C3: every search result list holds at most one entry per distinct
source path, and the entry kept for a path is the first candidate with
that path in retrieval order. -/
theorem c3_dedup_invariant (llm : Bool) (topK : Nat) (hits : List Hit) :
    ((searchModel llm topK hits).map (fun p => p.1.source)).Nodup
    ∧ ∀ p ∈ searchModel llm topK hits,
        hits.find? (fun x => x.source == p.1.source) = some p.1 := by
  have hded := dedupGo_spec hits []
  have hfst : (rescore llm ((dedupGo [] hits).map (fun h => (h, h.dist)))).map Prod.fst
      = dedupGo [] hits := by
    rw [rescore_map_fst, List.map_map]
    exact List.map_id' _
  constructor
  · have h1 : ((rescore llm ((dedupGo [] hits).map (fun h => (h, h.dist)))).map
        (fun p => p.1.source)).Nodup := by
      have e1 : (rescore llm ((dedupGo [] hits).map (fun h => (h, h.dist)))).map
          (fun p => p.1.source)
          = ((rescore llm ((dedupGo [] hits).map (fun h => (h, h.dist)))).map Prod.fst).map
              (fun h => h.source) := by
        rw [List.map_map]
        rfl
      rw [e1, hfst]
      exact hded.1
    have hperm : List.Perm
        (((rescore llm ((dedupGo [] hits).map (fun h => (h, h.dist)))).mergeSort
          (fun a b => decide (a.2 ≤ b.2))).map (fun p => p.1.source))
        ((rescore llm ((dedupGo [] hits).map (fun h => (h, h.dist)))).map
          (fun p => p.1.source)) :=
      (List.mergeSort_perm _ _).map _
    have h2 := hperm.symm.nodup h1
    have hsub : (searchModel llm topK hits).map (fun p => p.1.source) |>.Sublist
        (((rescore llm ((dedupGo [] hits).map (fun h => (h, h.dist)))).mergeSort
          (fun a b => decide (a.2 ≤ b.2))).map (fun p => p.1.source)) := by
      unfold searchModel
      exact (List.take_sublist _ _).map _
    exact h2.sublist hsub
  · intro p hp
    have h1 : p.1 ∈ (rescore llm ((dedupGo [] hits).map (fun h => (h, h.dist)))).map
        Prod.fst :=
      List.mem_map_of_mem _ (mem_searchModel llm topK hits p hp)
    rw [hfst] at h1
    exact ((hded.2) p.1 h1).2.2

theorem c3_dedup_invariant_witness :
    [(⟨("/a").toList, 1, none⟩ : Hit)].find?
      (fun x => x.source == (((⟨("/a").toList, 1, none⟩ : Hit), (1 : ℚ)).1.source))
      = some ((⟨("/a").toList, 1, none⟩ : Hit), (1 : ℚ)).1 := by
  have e : rescore false ((dedupGo [] [(⟨("/a").toList, 1, none⟩ : Hit)]).map
      (fun h => (h, h.dist))) = [((⟨("/a").toList, 1, none⟩ : Hit), (1 : ℚ))] := by decide
  have hm : ((⟨("/a").toList, 1, none⟩ : Hit), (1 : ℚ))
      ∈ searchModel false 1 [(⟨("/a").toList, 1, none⟩ : Hit)] := by
    unfold searchModel
    rw [e, List.mergeSort_singleton]
    simp
  exact (c3_dedup_invariant false 1 [(⟨("/a").toList, 1, none⟩ : Hit)]).2 _ hm

/-- C4: with no scorer available, the search output is exactly the
deduplicated raw retrieval order truncated to topK, every result's
score is its raw vector distance, and the store is asked for exactly
topK candidates. -/
theorem c4_no_scorer_order (topK : Nat) (hits : List Hit)
    (hsorted : hits.Pairwise (fun a b => a.dist ≤ b.dist)) :
    searchModel false topK hits = ((dedupGo [] hits).map (fun h => (h, h.dist))).take topK
    ∧ (∀ p ∈ searchModel false topK hits, p.2 = p.1.dist)
    ∧ initialK false topK = topK := by
  have hded : (dedupGo [] hits).Pairwise (fun a b => a.dist ≤ b.dist) :=
    hsorted.sublist (dedupGo_sublist hits [])
  have hmap : ((dedupGo [] hits).map (fun h => (h, h.dist))).Pairwise
      (fun a b => decide (a.2 ≤ b.2) = true) := by
    rw [List.pairwise_map]
    exact hded.imp (fun hab => by simpa using hab)
  have hre : rescore false ((dedupGo [] hits).map (fun h => (h, h.dist)))
      = (dedupGo [] hits).map (fun h => (h, h.dist)) := rfl
  have heq : searchModel false topK hits
      = ((dedupGo [] hits).map (fun h => (h, h.dist))).take topK := by
    unfold searchModel
    rw [hre, List.mergeSort_of_sorted hmap]
  refine ⟨heq, ?_, rfl⟩
  intro p hp
  rw [heq] at hp
  obtain ⟨h, _, he⟩ := List.mem_map.mp (List.mem_of_mem_take hp)
  rw [← he]

theorem c4_no_scorer_order_witness : initialK false 1 = 1 :=
  (c4_no_scorer_order 1
    [(⟨("/a").toList, 1, none⟩ : Hit), (⟨("/b").toList, 2, none⟩ : Hit)]
    (by norm_num [List.pairwise_cons])).2.2

/-- C8: a scorer failure on one candidate makes that candidate's score
fall back to its raw vector distance: _score_with_llm returns the
incoming score on an error, re-scoring never drops or reorders the
candidate set it is given, and in the full pipeline a candidate whose
scorer call failed comes out with its vector distance as score. -/
theorem c8_scorer_failure_fallback :
    (∀ d : ℚ, scoreWithLLM true none d = d)
    ∧ (∀ (b : Bool) (rs : List (Hit × ℚ)), (rescore b rs).map Prod.fst = rs.map Prod.fst)
    ∧ (∀ (topK : Nat) (hits : List Hit) (p : Hit × ℚ),
        p ∈ searchModel true topK hits → p.1.resp = none → p.2 = p.1.dist) := by
  refine ⟨fun d => rfl, rescore_map_fst, ?_⟩
  intro topK hits p hp hresp
  obtain ⟨q, hq, he⟩ := mem_rescore_true _ p (mem_searchModel true topK hits p hp)
  obtain ⟨h, hhm, hfq⟩ := List.mem_map.mp hq
  rw [← hfq] at he
  rw [he] at hresp ⊢
  simp only at hresp ⊢
  rw [hresp]
  rfl

theorem c8_scorer_failure_fallback_witness :
    (((⟨("/x").toList, 1, none⟩ : Hit), (1 : ℚ)) : Hit × ℚ).2
      = (((⟨("/x").toList, 1, none⟩ : Hit), (1 : ℚ)) : Hit × ℚ).1.dist := by
  have e : rescore true ((dedupGo [] [(⟨("/x").toList, 1, none⟩ : Hit)]).map
      (fun h => (h, h.dist))) = [((⟨("/x").toList, 1, none⟩ : Hit), (1 : ℚ))] := by decide
  have hm : ((⟨("/x").toList, 1, none⟩ : Hit), (1 : ℚ))
      ∈ searchModel true 1 [(⟨("/x").toList, 1, none⟩ : Hit)] := by
    unfold searchModel
    rw [e, List.mergeSort_singleton]
    simp
  exact c8_scorer_failure_fallback.2.2 1 [(⟨("/x").toList, 1, none⟩ : Hit)] _ hm rfl

/-! ### Claim theorems: indexing run and search error paths -/

/-- C7: index returns the number of chunks written to the store in this
run, and a run that loads zero documents returns 0 having performed no
store operation at all. -/
theorem c7_index_count (docs : List (List Char)) (cs ov : Nat) (ne force : Bool) :
    (indexRun docs cs ov ne force).1 = chunksWritten (indexRun docs cs ov ne force).2
    ∧ indexRun [] cs ov ne force = (0, []) := by
  constructor
  · by_cases h : docs.isEmpty
    · simp [indexRun, h, chunksWritten]
    · cases force <;> cases ne <;>
        simp [indexRun, h, chunksWritten]
  · rfl

/-- C9: a store-level failure of the similarity query is caught: the
search call returns the empty result list with the error signalled, a
signal distinct from the non-error missing-index condition; a successful
query runs the normal pipeline. -/
theorem c9_query_error_empty (llmAvailable : Bool) (topK : Nat) :
    searchRun llmAvailable topK RetrievalOutcome.queryError = (SearchStatus.errorReported, [])
    ∧ searchRun llmAvailable topK RetrievalOutcome.noIndex = (SearchStatus.noIndexReported, [])
    ∧ SearchStatus.errorReported ≠ SearchStatus.noIndexReported
    ∧ ∀ hits, searchRun llmAvailable topK (RetrievalOutcome.hits hits)
        = (SearchStatus.completed, searchModel llmAvailable topK hits) :=
  ⟨rfl, rfl, by decide, fun _ => rfl⟩

end PSearch
